import Mathlib

/-!
# GSC blockchain core: shallow embedding and verification

Shallow embedding of the ledger/consensus core of the GSC blockchain
repository:

* Transaction.js (gsc-complete/blockchain) — transfer records with a
  content-addressed identifier;
* Block.js — block construction, content hashing, Merkle commitment,
  proof-of-work mining loop, validity check;
* Blockchain.js (gsc-web/server/blockchain) — genesis creation, mempool
  admission with double-spend control, block assembly and mining,
  chain append, full balance recomputation.

JavaScript numbers are modelled as rationals; all amounts appearing in the
repository are decimal literals, and every claim checked here is an equality
or inequality that has the same truth value over exact rationals as over
IEEE doubles at these values. The external primitives used by the source —
the sha256 hex digest, the JavaScript number-to-string coercion and
JSON.stringify over a transaction array — are abstracted as an environment
of pure functions, since the source treats them as opaque deterministic
string producers. Mutation is rendered as state passing: methods that
mutate an object return the updated value. The unbounded proof-of-work
while loop is rendered with an explicit fuel argument; fuel exhaustion is
the functional image of "the loop has not terminated yet".
-/

namespace GSC

set_option maxRecDepth 100000

/-- Transfer record. Fields mirror Transaction.js: sender, receiver,
amount, fee, timestamp, signature placeholder and the content-addressed
identifier txId computed at construction. -/
structure Transaction where
  sender : String
  receiver : String
  amount : ℚ
  fee : ℚ
  timestamp : ℚ
  signature : String
  txId : String
deriving DecidableEq, Inhabited

/-- External primitives the source calls: the sha256 hex digest
(crypto.createHash), the JavaScript number-to-string coercion used by
string concatenation, and JSON.stringify applied to a transaction array.
All are pure deterministic string producers. -/
structure Env where
  sha256 : String → String
  numStr : ℚ → String
  jsonTxs : List Transaction → String

/-- Preimage string of Transaction.calculateHash:
sender + receiver + amount + fee + timestamp (string concatenation with
number-to-string coercion). -/
def txHashInput (env : Env) (sender receiver : String) (amount fee timestamp : ℚ) : String :=
  sender ++ receiver ++ env.numStr amount ++ env.numStr fee ++ env.numStr timestamp

/-- Transaction.calculateHash: sha256 over the field concatenation. -/
def Transaction.calculateHash (env : Env) (tx : Transaction) : String :=
  env.sha256 (txHashInput env tx.sender tx.receiver tx.amount tx.fee tx.timestamp)

/-- Transaction constructor. A timestamp argument of none models the
JavaScript null default; a zero timestamp is falsy, so both fall back to
Date.now(), passed here as the explicit clock value now. The signature
starts empty and txId is the content hash of the other fields. -/
def Transaction.make (env : Env) (now : ℚ) (sender receiver : String)
    (amount fee : ℚ) (timestamp : Option ℚ) : Transaction :=
  let ts : ℚ :=
    match timestamp with
    | some t => if t = 0 then now else t
    | none => now
  { sender := sender, receiver := receiver, amount := amount, fee := fee,
    timestamp := ts, signature := "",
    txId := env.sha256 (txHashInput env sender receiver amount fee ts) }

/-- Transaction.isValid: sender and receiver must be truthy (non-empty),
amount strictly positive, fee non-negative; system senders COINBASE and
GENESIS always pass the identifier check, others must have txId equal to a
fresh recomputation of the content hash. -/
def Transaction.isValid (env : Env) (tx : Transaction) : Bool :=
  if tx.sender = "" ∨ tx.receiver = "" then false
  else if tx.amount ≤ 0 then false
  else if tx.fee < 0 then false
  else if tx.sender = "COINBASE" ∨ tx.sender = "GENESIS" then true
  else tx.txId = Transaction.calculateHash env tx

/-- One pass of the pairing loop inside Block.calculateMerkleRoot: the
body for (i = 0; i < length; i += 2) with right = hashes[i+1] || left,
so an out-of-range or empty-string right operand is replaced by left. -/
def merkleLevel (H : String → String) : List String → List String
  | [] => []
  | [a] => [H (a ++ a)]
  | a :: b :: rest => H (a ++ (if b = "" then a else b)) :: merkleLevel H rest

/-- The while (hashes.length > 1) loop of calculateMerkleRoot, rendered
with fuel; each iteration replaces the level by one pairing pass. The
initial level length is always enough fuel to reach a single hash. -/
def merkleRounds (level : List String → List String) : ℕ → List String → List String
  | 0, hs => hs
  | n + 1, hs => if hs.length ≤ 1 then hs else merkleRounds level n (level hs)

/-- Block.calculateMerkleRoot: hash of the empty string when there are no
transactions; otherwise leaves are tx.txId || tx.calculateHash() and the
pairing loop runs until one hash remains. -/
def calculateMerkleRoot (env : Env) (txs : List Transaction) : String :=
  if txs = [] then env.sha256 ""
  else
    let leaves := txs.map fun tx =>
      if tx.txId = "" then Transaction.calculateHash env tx else tx.txId
    (merkleRounds (merkleLevel env.sha256) leaves.length leaves).headD ""

/-- Block header fields, Block.js. -/
structure Block where
  index : ℕ
  timestamp : ℚ
  transactions : List Transaction
  previousHash : String
  nonce : ℕ
  difficulty : ℕ
  hash : String
  merkleRoot : String
  miner : String
  reward : ℚ
deriving DecidableEq, Inhabited

/-- Preimage string of Block.calculateHash:
index + previousHash + timestamp + JSON.stringify(transactions) + nonce
+ merkleRoot. -/
def blockHashInput (env : Env) (index : ℕ) (previousHash : String) (timestamp : ℚ)
    (txs : List Transaction) (nonce : ℕ) (merkleRoot : String) : String :=
  env.numStr index ++ previousHash ++ env.numStr timestamp ++ env.jsonTxs txs
    ++ env.numStr nonce ++ merkleRoot

/-- Block.calculateHash over the current field values. -/
def Block.calculateHash (env : Env) (b : Block) : String :=
  env.sha256 (blockHashInput env b.index b.previousHash b.timestamp b.transactions
    b.nonce b.merkleRoot)

/-- Block constructor. Faithful to the source statement order: the line
this.hash = this.calculateHash() runs before this.merkleRoot is assigned,
so at that moment this.merkleRoot is undefined and string concatenation
appends the literal text "undefined" in place of the Merkle root; the
merkleRoot field is only assigned afterwards. A zero timestamp is falsy
and falls back to the clock value now. -/
def Block.make (env : Env) (now : ℚ) (index : ℕ) (transactions : List Transaction)
    (timestamp : ℚ) (previousHash : String) (nonce : ℕ) (difficulty : ℕ) : Block :=
  let ts : ℚ := if timestamp = 0 then now else timestamp
  { index := index, timestamp := ts, transactions := transactions,
    previousHash := previousHash, nonce := nonce, difficulty := difficulty,
    hash := env.sha256 (blockHashInput env index previousHash ts transactions
      nonce "undefined"),
    merkleRoot := calculateMerkleRoot env transactions,
    miner := "", reward := 0 }

/-- The string produced by the repeat method on the zero character, used
as the mining target. -/
def zeros (d : ℕ) : String := String.mk (List.replicate d '0')

/-- The while loop of Block.mineBlock, rendered with fuel: while the first
difficulty characters of the hash differ from the target, increment the
nonce and recompute the hash from the current fields. The progress
callback only reports statistics and does not affect state, so it is
omitted. -/
def mineLoop (env : Env) (difficulty : ℕ) : ℕ → Block → Option Block
  | fuel, b =>
    if b.hash.take difficulty = zeros difficulty then some b
    else
      match fuel with
      | 0 => none
      | fuel' + 1 =>
        let b1 := { b with nonce := b.nonce + 1 }
        mineLoop env difficulty fuel' { b1 with hash := Block.calculateHash env b1 }

/-- Block.mineBlock: records the miner address, then runs the
proof-of-work search. The returned record carries the final nonce and
hash, which are exactly the fields of the returned block value. -/
def Block.mineBlock (env : Env) (b : Block) (difficulty : ℕ) (minerAddress : String)
    (fuel : ℕ) : Option Block :=
  mineLoop env difficulty fuel { b with miner := minerAddress }

/-- Block.isValid: stored hash must match recomputation, previousHash must
match the supplied previous block when one is given, the hash must start
with the difficulty-many zero target, the stored Merkle root must match
recomputation, and every embedded transaction must be valid. -/
def Block.isValid (env : Env) (b : Block) (previousBlock : Option Block) : Bool :=
  if b.hash ≠ Block.calculateHash env b then false
  else if (match previousBlock with
           | some p => decide (b.previousHash ≠ p.hash)
           | none => false) then false
  else if ¬ b.hash.startsWith (zeros b.difficulty) then false
  else if b.merkleRoot ≠ calculateMerkleRoot env b.transactions then false
  else b.transactions.all fun tx => tx.isValid env

/-- Ledger state, Blockchain.js. The balances object is modelled as a
total function defaulting to zero: the source initialises missing keys to
zero before updating and reads missing keys as zero via the or-else
fallback, so the two representations coincide observationally. -/
structure Blockchain where
  chain : List Block
  difficulty : ℕ
  mempool : List Transaction
  balances : String → ℚ
  miningReward : ℚ
  isMining : Bool
  blockTimeTarget : ℚ
  halvingInterval : ℤ
  totalSupply : ℚ
  currentSupply : ℚ
  genesisAddress : String
  genesisReward : ℚ
deriving Inhabited

/-- Point update of the balances table. -/
def updateBal (bal : String → ℚ) (k : String) (v : ℚ) : String → ℚ :=
  fun a => if a = k then v else bal a

/-- Effect of a single transaction in updateBalances: debit the sender by
amount plus fee unless the sender is a system sentinel; credit the
receiver with the amount; credit the fee to the recorded block miner when
the sender is not COINBASE and the miner string is truthy (non-empty). -/
def applyTx (miner : String) (bal : String → ℚ) (tx : Transaction) : String → ℚ :=
  let bal1 :=
    if tx.sender = "COINBASE" ∨ tx.sender = "GENESIS" then bal
    else updateBal bal tx.sender (bal tx.sender - (tx.amount + tx.fee))
  let bal2 := updateBal bal1 tx.receiver (bal1 tx.receiver + tx.amount)
  if tx.sender ≠ "COINBASE" ∧ miner ≠ "" then
    updateBal bal2 miner (bal2 miner + tx.fee)
  else bal2

/-- Effect of one block in updateBalances: fold applyTx over its
transactions with the recorded miner of that block. -/
def applyBlock (bal : String → ℚ) (blk : Block) : String → ℚ :=
  blk.transactions.foldl (applyTx blk.miner) bal

/-- Full balance table derived from a chain: updateBalances starts from
the empty object and walks every block and transaction in order. -/
def balancesOf (chain : List Block) : String → ℚ :=
  chain.foldl applyBlock (fun _ => 0)

/-- Blockchain.updateBalances: rebuild the balance table from the chain. -/
def updateBalances (bc : Blockchain) : Blockchain :=
  { bc with balances := balancesOf bc.chain }

/-- Blockchain.getBalance, with the missing-key-means-zero fallback. -/
def getBalance (bc : Blockchain) (address : String) : ℚ :=
  bc.balances address

/-- Blockchain.getLatestBlock: chain[chain.length - 1]; none models the
undefined result on an empty chain. -/
def getLatestBlock (bc : Blockchain) : Option Block :=
  bc.chain.getLast?

/-- Blockchain.getCurrentReward: the height is chain.length - 1; at height
zero the undivided base reward; otherwise halvings =
Math.floor((height - 1) / halvingInterval), zero reward once 64 halvings
are reached, else the base reward divided by 2 to the halvings. Math.floor
of the quotient is integer floor division and Math.pow is rendered as a
zpow so that the function is defined exactly as the source on every state. -/
def getCurrentReward (bc : Blockchain) : ℚ :=
  let blockHeight : ℤ := (bc.chain.length : ℤ) - 1
  if blockHeight = 0 then bc.miningReward
  else
    let halvings : ℤ := Int.fdiv (blockHeight - 1) bc.halvingInterval
    if 64 ≤ halvings then 0
    else bc.miningReward / (2 : ℚ) ^ halvings

/-- Blockchain.isTransactionValid: the transaction must be valid on its
own, and its amount plus fee, added to the summed amount plus fee of every
mempool transaction from the same sender, must not exceed the current
ledger balance of the sender. -/
def isTransactionValid (env : Env) (bc : Blockchain) (tx : Transaction) : Bool :=
  if ¬ tx.isValid env then false
  else
    let senderTxs := bc.mempool.filter fun t => t.sender = tx.sender
    let totalSpending := senderTxs.foldl (fun sum t => sum + t.amount + t.fee) 0
    let senderBalance := getBalance bc tx.sender
    totalSpending + tx.amount + tx.fee ≤ senderBalance

/-- Blockchain.addTransactionToMempool: reject when isTransactionValid
fails, when the sender balance cannot cover amount plus fee, or when the
identifier is already queued; otherwise push onto the mempool. The result
models the success flag of the returned object. -/
def addTransactionToMempool (env : Env) (bc : Blockchain) (tx : Transaction) :
    Blockchain × Bool :=
  if ¬ isTransactionValid env bc tx then (bc, false)
  else
    let senderBalance := getBalance bc tx.sender
    let totalCost := tx.amount + tx.fee
    if senderBalance < totalCost then (bc, false)
    else if bc.mempool.any fun t => t.txId = tx.txId then (bc, false)
    else ({ bc with mempool := bc.mempool ++ [tx] }, true)

/-- Blockchain.addBlock: validate the candidate against the current tip;
on success push it onto the chain and rebuild the balance table, on
failure leave the state untouched. -/
def addBlock (env : Env) (bc : Blockchain) (newBlock : Block) : Blockchain × Bool :=
  let previousBlock := getLatestBlock bc
  if Block.isValid env newBlock previousBlock then
    (updateBalances { bc with chain := bc.chain ++ [newBlock] }, true)
  else (bc, false)

/-- The findIndex-and-splice step of minePendingTransactions: remove the
first mempool entry carrying the given identifier, if any. -/
def removeFirstById : List Transaction → String → List Transaction
  | [], _ => []
  | t :: ts, i => if t.txId = i then ts else t :: removeFirstById ts i

/-- Blockchain.minePendingTransactions. Returns the post-call ledger state
and the mined block when one was appended. The guards return nothing when
the mempool is empty without forceMine, or when mining is already in
flight; the isMining flag is set on entry and cleared in the finally
clause, so the returned state carries its original value. Selection takes
the first ten mempool entries; the coinbase transaction pays the current
reward plus the summed fees of the selected transactions; the candidate
block is built at the next index on the current tip and mined at the
fixed ledger difficulty (fuel models the unbounded search). On a
successful append the selected transactions are removed from the mempool
by identifier; on a failed append or exhausted search the state is
returned unchanged with no block. -/
def minePendingTransactions (env : Env) (now : ℚ) (bc : Blockchain)
    (minerAddress : String) (fuel : ℕ) (forceMine : Bool) :
    Blockchain × Option Block :=
  if bc.mempool.isEmpty ∧ ¬ forceMine then (bc, none)
  else if bc.isMining then (bc, none)
  else
    let selectedTransactions := bc.mempool.take 10
    let currentReward := getCurrentReward bc
    let totalFees := selectedTransactions.foldl (fun sum t => sum + t.fee) 0
    let coinbaseTransaction :=
      Transaction.make env now "COINBASE" minerAddress (currentReward + totalFees) 0 none
    match getLatestBlock bc with
    | none => (bc, none)
    | some tip =>
      let newBlock0 := Block.make env now bc.chain.length
        (coinbaseTransaction :: selectedTransactions) now tip.hash 0 bc.difficulty
      let newBlock1 := { newBlock0 with reward := currentReward, miner := minerAddress }
      match Block.mineBlock env newBlock1 bc.difficulty minerAddress fuel with
      | none => (bc, none)
      | some mined =>
        let appended := addBlock env bc mined
        if appended.2 then
          let mempool' :=
            selectedTransactions.foldl (fun mp t => removeFirstById mp t.txId) appended.1.mempool
          ({ appended.1 with mempool := mempool' }, some mined)
        else (bc, none)

/-- Genesis timestamp used by createGenesisBlock (Jan 1, 2024). -/
def genesisTimestamp : ℚ := 1704067200000

/-- The fixed genesis address of the ledger. -/
def gAddr : String := "GSC1705641e65321ef23ac5fb3d470f39627"

/-- The genesis transaction: 255 GSC from the GENESIS sentinel to the
fixed genesis address at the genesis timestamp with zero fee. -/
def genesisTransactionOf (env : Env) : Transaction :=
  Transaction.make env genesisTimestamp "GENESIS" gAddr 255 0 (some genesisTimestamp)

/-- The unmined genesis block: index zero, the single genesis transaction,
the 64-zero previous-hash sentinel, nonce zero, difficulty one. -/
def genesisBlockOf (env : Env) : Block :=
  Block.make env genesisTimestamp 0 [genesisTransactionOf env] genesisTimestamp
    (zeros 64) 0 1

/-- The Blockchain constructor on a fresh ledger (no persisted state):
field initialisation followed by createGenesisBlock, which builds the
GENESIS transaction of 255 GSC to the fixed genesis address, wraps it in
block zero with the all-zero previous hash at difficulty one, mines it,
pushes it, rebuilds balances and seeds the current supply. Fuel bounds the
genesis mining search. -/
def newBlockchain (env : Env) (fuel : ℕ) : Option Blockchain :=
  match Block.mineBlock env (genesisBlockOf env) 1 "GENESIS" fuel with
  | none => none
  | some mined =>
    let bc : Blockchain :=
      { chain := [mined], difficulty := 5, mempool := [],
        balances := fun _ => 0, miningReward := 50, isMining := false,
        blockTimeTarget := 120, halvingInterval := 1051200,
        totalSupply := 21750000000000, currentSupply := 0,
        genesisAddress := gAddr, genesisReward := 255 }
    some { updateBalances bc with currentSupply := 255 }

/-! Concrete evaluation environments and states used by witnesses and
counterexamples. cenvC uses a constant digest, under which both the
genesis search and the block search succeed immediately; cenvId uses the
identity as digest, which keeps distinct preimages distinct. -/

/-- Constant-digest environment: every preimage hashes to five zero hex
characters, so proof-of-work at difficulty up to five succeeds at once. -/
def cenvC : Env :=
  { sha256 := fun _ => "00000", numStr := fun _ => "", jsonTxs := fun _ => "" }

/-- Identity-digest environment: the digest of a string is the string
itself, so distinct preimages have distinct digests. -/
def cenvId : Env :=
  { sha256 := fun s => s,
    numStr := fun q => toString q.num ++ "d" ++ toString q.den,
    jsonTxs := fun _ => "[]" }

/-- Fresh ledger built under the constant-digest environment. -/
def cbc0 : Blockchain := (newBlockchain cenvC 0).getD default

/-- The submitted transaction of the end-to-end scenario: genesis address
to addressX, amount 10, fee 0.1, created at clock now1. -/
def scenarioTx (env : Env) (now1 : ℚ) : Transaction :=
  Transaction.make env now1 gAddr "addressX" 10 (1 / 10) none

/-- The submission step of the end-to-end scenario. -/
def scenarioSubmit (env : Env) (now1 : ℚ) (bc : Blockchain) : Blockchain × Bool :=
  addTransactionToMempool env bc (scenarioTx env now1)

/-- The submitted transaction of the concrete scenario run. -/
def ctx : Transaction := scenarioTx cenvC 7

/-- Ledger after submitting ctx to the fresh ledger. -/
def cbc1 : Blockchain := (scenarioSubmit cenvC 7 cbc0).1

/-- Result of mining the pending transactions with miner addressM. -/
def cRun : Blockchain × Option Block :=
  minePendingTransactions cenvC 8 cbc1 "addressM" 0 false

/-- Ledger state after the mining call. -/
def cbc2 : Blockchain := cRun.1

/-- The block appended by the mining call. -/
def cblk : Block := cRun.2.getD default

/-- A dummy block value used in states whose block contents are
irrelevant to the property at hand. -/
def blk0 : Block := ⟨0, 0, [], "", 0, 0, "", "", "", 0⟩

/-- Ledger state at height exactly one halving interval past genesis:
the chain holds the genesis block and 1051200 further blocks. Only the
chain length matters to getCurrentReward. -/
def c2bc : Blockchain :=
  { chain := List.replicate 1051201 blk0, difficulty := 5, mempool := [],
    balances := fun _ => 0, miningReward := 50, isMining := false,
    blockTimeTarget := 120, halvingInterval := 1051200,
    totalSupply := 21750000000000, currentSupply := 255,
    genesisAddress := gAddr, genesisReward := 255 }

/-- Small reward-state used to instantiate the reward characterization. -/
def c2wbc : Blockchain := { c2bc with chain := [blk0], halvingInterval := 3 }

/-- Handcrafted unmined block used to exercise the mining loop: its
stored hash does not meet the difficulty-one target. -/
def wb4 : Block := ⟨1, 2, [], "p", 0, 1, "x", "r", "", 0⟩

/-- Result of mining a freshly constructed block at difficulty zero under
the identity digest: the loop performs no iteration. -/
def cb4 : Block :=
  (Block.mineBlock cenvId (Block.make cenvId 9 0 [] 5 "p" 0 0) 0 "m" 0).getD default

/-- Constant non-empty digest environment for the Merkle computation. -/
def env9 : Env :=
  { sha256 := fun _ => "h", numStr := fun _ => "n", jsonTxs := fun _ => "j" }

/-- Two concrete transactions with non-empty identifiers. -/
def wtx1 : Transaction := Transaction.make env9 1 "a" "b" 1 0 none

/-- Second concrete transaction with a non-empty identifier. -/
def wtx2 : Transaction := Transaction.make env9 2 "c" "d" 2 0 none

/-- Ledger state granting the address alice a balance of 100, with an
empty mempool, used for the double-spend admission scenario. -/
def bc6 : Blockchain :=
  { chain := [], difficulty := 0, mempool := [],
    balances := fun a => if a = "alice" then 100 else 0, miningReward := 0,
    isMining := false, blockTimeTarget := 0, halvingInterval := 1,
    totalSupply := 0, currentSupply := 0, genesisAddress := "", genesisReward := 0 }

/-- First submitted spend of 60 from alice. -/
def tx61 : Transaction := Transaction.make cenvId 1 "alice" "bob" 60 0 none

/-- Second submitted spend of 60 from alice. -/
def tx62 : Transaction := Transaction.make cenvId 2 "alice" "carol" 60 0 none

/-- The ledger state a fresh construction produces once the genesis block
has been mined to g: singleton chain, empty mempool, balances rebuilt
from the chain, current supply seeded with the genesis reward. -/
def freshLedger (env : Env) (g : Block) : Blockchain :=
  { chain := [g], difficulty := 5, mempool := [], balances := balancesOf [g],
    miningReward := 50, isMining := false, blockTimeTarget := 120,
    halvingInterval := 1051200, totalSupply := 21750000000000,
    currentSupply := 255, genesisAddress := gAddr, genesisReward := 255 }

/-- One pairing pass as the specification words it: hash adjacent pairs,
duplicating the last hash when the level has odd length. Stated for
comparison with the source computation merkleLevel. -/
def specLevel (H : String → String) : List String → List String
  | [] => []
  | [a] => [H (a ++ a)]
  | a :: b :: rest => H (a ++ b) :: specLevel H rest

/-- Merkle root as the specification words it: the hash of the empty
string when there are no leaves; otherwise repeatedly hash
pairwise-concatenated adjacent hashes, duplicating the last hash of an
odd level, until a single hash remains. -/
def specMerkleRoot (H : String → String) (leaves : List String) : String :=
  if leaves = [] then H ""
  else (merkleRounds (specLevel H) leaves.length leaves).headD ""

/-! Helper lemmas about the mining loop. -/

/-- Combined specification of mineLoop: a successful search returns a
block whose hash meets the target, whose non-search fields are those of
the input, and whose hash is consistent with recomputation provided the
input hash was (the loop re-establishes consistency on every iteration). -/
theorem mineLoop_spec (env : Env) (d : ℕ) :
    ∀ (fuel : ℕ) (b b' : Block), mineLoop env d fuel b = some b' →
      b'.hash.take d = zeros d ∧
      b'.index = b.index ∧ b'.timestamp = b.timestamp ∧
      b'.transactions = b.transactions ∧ b'.previousHash = b.previousHash ∧
      b'.difficulty = b.difficulty ∧ b'.merkleRoot = b.merkleRoot ∧
      b'.miner = b.miner ∧ b'.reward = b.reward ∧
      (b.hash = Block.calculateHash env b → b'.hash = Block.calculateHash env b') := by
  intro fuel
  induction fuel with
  | zero =>
    intro b b' h
    rw [mineLoop] at h
    by_cases hc : b.hash.take d = zeros d
    · rw [if_pos hc] at h
      cases h
      exact ⟨hc, rfl, rfl, rfl, rfl, rfl, rfl, rfl, rfl, fun hh => hh⟩
    · rw [if_neg hc] at h
      cases h
  | succ n ih =>
    intro b b' h
    rw [mineLoop] at h
    by_cases hc : b.hash.take d = zeros d
    · rw [if_pos hc] at h
      cases h
      exact ⟨hc, rfl, rfl, rfl, rfl, rfl, rfl, rfl, rfl, fun hh => hh⟩
    · rw [if_neg hc] at h
      have hs := ih _ _ h
      exact ⟨hs.1, hs.2.1, hs.2.2.1, hs.2.2.2.1, hs.2.2.2.2.1, hs.2.2.2.2.2.1,
        hs.2.2.2.2.2.2.1, hs.2.2.2.2.2.2.2.1, hs.2.2.2.2.2.2.2.2.1,
        fun _ => hs.2.2.2.2.2.2.2.2.2 rfl⟩

/-- C3: the claim reads that the constructor computes the Merkle root
first and then a hash that recomputes over the stored fields. In the
source the statement this.hash = this.calculateHash() runs before
this.merkleRoot is assigned, so the preimage carries the text "undefined"
in the Merkle position and the stored hash of a freshly constructed block
differs from its recomputation. Evaluated at the concrete failing input
Block(0, [], 5, "p", 0, 1) under the identity digest. -/
theorem c3_constructor_hash_stale :
    (Block.make cenvId 9 0 [] 5 "p" 0 1).hash
        = cenvId.sha256 (blockHashInput cenvId 0 "p" 5 [] 0 "undefined") ∧
    (Block.make cenvId 9 0 [] 5 "p" 0 1).hash
        ≠ Block.calculateHash cenvId (Block.make cenvId 9 0 [] 5 "p" 0 1) :=
  ⟨rfl, by decide⟩

/-- C4 counterexample: at difficulty zero the mining loop performs no
iteration, so a freshly constructed block keeps the stale constructor
hash, which does not equal the recomputation over its stored fields. -/
theorem c4_counterexample :
    Block.mineBlock cenvId (Block.make cenvId 9 0 [] 5 "p" 0 0) 0 "m" 0 = some cb4 ∧
    cb4.hash.take 0 = zeros 0 ∧
    cb4.hash ≠ Block.calculateHash cenvId cb4 :=
  ⟨rfl, rfl, by decide⟩

/-- C4 (amended): when the stored hash at entry does not already satisfy
the target — so the search performs at least one iteration, the normal
case for a fresh candidate — a successful Mine returns a block whose hash
has at least d leading zero hex characters and equals the recomputation
of the content hash from its current fields. -/
theorem c4_mineBlock_amended (env : Env) (b : Block) (d : ℕ) (miner : String)
    (fuel : ℕ) (b' : Block) (hstart : b.hash.take d ≠ zeros d)
    (h : Block.mineBlock env b d miner fuel = some b') :
    b'.hash.take d = zeros d ∧ b'.hash = Block.calculateHash env b' := by
  unfold Block.mineBlock at h
  cases fuel with
  | zero =>
    rw [mineLoop] at h
    rw [if_neg hstart] at h
    cases h
  | succ n =>
    rw [mineLoop] at h
    rw [if_neg hstart] at h
    have hs := mineLoop_spec env d n _ b' h
    exact ⟨hs.1, hs.2.2.2.2.2.2.2.2.2 rfl⟩

/-- C4 witness: mining the handcrafted block wb4 at difficulty one under
the constant digest succeeds after one iteration and yields a consistent
hash meeting the target. -/
theorem c4_witness :
    ((Block.mineBlock cenvC wb4 1 "m" 1).getD default).hash.take 1 = zeros 1 ∧
    ((Block.mineBlock cenvC wb4 1 "m" 1).getD default).hash
      = Block.calculateHash cenvC ((Block.mineBlock cenvC wb4 1 "m" 1).getD default) :=
  c4_mineBlock_amended cenvC wb4 1 "m" 1 _ (by decide) rfl

/-- C5: Transaction.isValid returns true exactly when sender and receiver
are non-empty, the amount is strictly positive, the fee is non-negative,
and either the sender is a system sentinel or the stored identifier
equals a fresh recomputation of the content hash. -/
theorem c5_isValid_iff (env : Env) (tx : Transaction) :
    Transaction.isValid env tx = true ↔
      tx.sender ≠ "" ∧ tx.receiver ≠ "" ∧ 0 < tx.amount ∧ 0 ≤ tx.fee ∧
        (tx.sender = "COINBASE" ∨ tx.sender = "GENESIS" ∨
          tx.txId = Transaction.calculateHash env tx) := by
  unfold Transaction.isValid
  split_ifs with h1 h2 h3 h4
  · simp only [false_iff]
    rintro ⟨hs, hr, -⟩
    rcases h1 with h | h
    · exact hs h
    · exact hr h
  · simp only [false_iff]
    rintro ⟨-, -, ha, -⟩
    exact absurd h2 (not_le.mpr ha)
  · simp only [false_iff]
    rintro ⟨-, -, -, hf, -⟩
    exact absurd h3 (not_lt.mpr hf)
  · simp only [true_iff]
    push_neg at h1
    refine ⟨h1.1, h1.2, not_le.mp h2, not_lt.mp h3, ?_⟩
    rcases h4 with h | h
    · exact Or.inl h
    · exact Or.inr (Or.inl h)
  · rw [decide_eq_true_eq]
    push_neg at h4
    constructor
    · intro ht
      push_neg at h1
      exact ⟨h1.1, h1.2, not_le.mp h2, not_lt.mp h3, Or.inr (Or.inr ht)⟩
    · rintro ⟨-, -, -, -, hid | hid | hid⟩
      · exact absurd hid h4.1
      · exact absurd hid h4.2
      · exact hid

/-- C2 counterexample: at height exactly one halving interval past
genesis (chain length 1051201, halving interval 1051200) the source
computes halvings = floor((height - 1) / interval) = 0 and returns the
full base reward 50, not half of it as the claim states. -/
theorem c2_counterexample :
    c2bc.chain.length - 1 = 1051200 ∧
    getCurrentReward c2bc = 50 ∧
    getCurrentReward c2bc ≠ c2bc.miningReward / 2 := by
  have hlen : c2bc.chain.length = 1051201 := by
    show (List.replicate 1051201 blk0).length = 1051201
    rw [List.length_replicate]
  have hI : c2bc.halvingInterval = 1051200 := rfl
  have hR : c2bc.miningReward = 50 := rfl
  have hfd : Int.fdiv 1051199 1051200 = 0 := by decide
  have hr : getCurrentReward c2bc = 50 := by
    unfold getCurrentReward
    rw [hlen, hI, hR]
    norm_num
    rw [hfd]
    norm_num
  refine ⟨by rw [hlen], hr, ?_⟩
  rw [hr, hR]
  norm_num

/-- C2 (amended): getCurrentReward equals the base reward at height zero,
and otherwise the base reward divided by 2 to the power
floor((height - 1) / interval), zero once that count reaches 64. In
particular the reward is still the full base reward at height exactly one
interval, halves only at height interval + 1, and reaches zero at height
64 interval + 1. -/
theorem c2_amended (bc : Blockchain) (hI : 0 < bc.halvingInterval)
    (hlen : 1 ≤ bc.chain.length) :
    getCurrentReward bc =
      (if bc.chain.length = 1 then bc.miningReward
       else if 64 ≤ (bc.chain.length - 2) / bc.halvingInterval.toNat then 0
       else bc.miningReward / 2 ^ ((bc.chain.length - 2) / bc.halvingInterval.toNat)) ∧
    (bc.chain.length = bc.halvingInterval.toNat + 1 →
      getCurrentReward bc = bc.miningReward) ∧
    (bc.chain.length = bc.halvingInterval.toNat + 2 →
      getCurrentReward bc = bc.miningReward / 2) ∧
    (bc.chain.length = 64 * bc.halvingInterval.toNat + 2 →
      getCurrentReward bc = 0) := by
  have hIt : 0 < bc.halvingInterval.toNat := by omega
  have main : getCurrentReward bc =
      (if bc.chain.length = 1 then bc.miningReward
       else if 64 ≤ (bc.chain.length - 2) / bc.halvingInterval.toNat then 0
       else bc.miningReward / 2 ^ ((bc.chain.length - 2) / bc.halvingInterval.toNat)) := by
    unfold getCurrentReward
    by_cases h1 : bc.chain.length = 1
    · rw [h1]
      norm_num
    · have h2 : 2 ≤ bc.chain.length := by omega
      have hne : ¬ ((bc.chain.length : ℤ) - 1 = 0) := by omega
      rw [if_neg hne, if_neg h1]
      have hcast : ((bc.chain.length : ℤ) - 1 - 1) = ((bc.chain.length - 2 : ℕ) : ℤ) := by
        omega
      have hIk : bc.halvingInterval = ((bc.halvingInterval.toNat : ℕ) : ℤ) := by omega
      rw [hcast, hIk, ← Int.ofNat_fdiv]
      simp only [Int.toNat_natCast]
      by_cases hk : 64 ≤ (bc.chain.length - 2) / bc.halvingInterval.toNat
      · rw [if_pos (by exact_mod_cast hk), if_pos hk]
      · rw [if_neg (by exact_mod_cast hk), if_neg hk, zpow_natCast]
  refine ⟨main, ?_, ?_, ?_⟩
  · intro h
    rw [main, if_neg (by omega)]
    have hz : (bc.chain.length - 2) / bc.halvingInterval.toNat = 0 :=
      Nat.div_eq_of_lt (by omega)
    rw [hz]
    norm_num
  · intro h
    rw [main, if_neg (by omega)]
    have hz : (bc.chain.length - 2) / bc.halvingInterval.toNat = 1 := by
      rw [h]
      simp [Nat.div_self hIt]
    rw [hz]
    norm_num
  · intro h
    rw [main, if_neg (by omega)]
    have hz : (bc.chain.length - 2) / bc.halvingInterval.toNat = 64 := by
      rw [h]
      simp [Nat.mul_div_cancel _ hIt]
    rw [hz]
    norm_num

/-- C2 witness: the characterization instantiated at a concrete ledger
with halving interval 3 and a single-block chain. -/
theorem c2_witness :
    getCurrentReward c2wbc =
      (if c2wbc.chain.length = 1 then c2wbc.miningReward
       else if 64 ≤ (c2wbc.chain.length - 2) / c2wbc.halvingInterval.toNat then 0
       else c2wbc.miningReward / 2 ^ ((c2wbc.chain.length - 2) / c2wbc.halvingInterval.toNat)) ∧
    (c2wbc.chain.length = c2wbc.halvingInterval.toNat + 1 →
      getCurrentReward c2wbc = c2wbc.miningReward) ∧
    (c2wbc.chain.length = c2wbc.halvingInterval.toNat + 2 →
      getCurrentReward c2wbc = c2wbc.miningReward / 2) ∧
    (c2wbc.chain.length = 64 * c2wbc.halvingInterval.toNat + 2 →
      getCurrentReward c2wbc = 0) :=
  c2_amended c2wbc (by decide) (by decide)

/-- C7: AppendBlock validates the candidate against the current tip; on
failure it returns false and leaves the whole state (chain and balance
table) unchanged, and on success it returns true, pushes the block and
rebuilds the balance table from the extended chain. -/
theorem c7_addBlock_spec (env : Env) (bc : Blockchain) (b : Block) :
    (Block.isValid env b (getLatestBlock bc) = false →
      addBlock env bc b = (bc, false)) ∧
    (Block.isValid env b (getLatestBlock bc) = true →
      addBlock env bc b =
        ({ bc with chain := bc.chain ++ [b],
                   balances := balancesOf (bc.chain ++ [b]) }, true)) := by
  constructor
  · intro h
    unfold addBlock
    rw [if_neg (by rw [h]; exact Bool.false_ne_true)]
  · intro h
    unfold addBlock
    rw [if_pos h]
    rfl

/-- C7 witness: a block that fails validation is rejected with the ledger
state returned untouched. -/
theorem c7_witness : addBlock cenvId bc6 blk0 = (bc6, false) :=
  (c7_addBlock_spec cenvId bc6 blk0).1 (by decide)

/-- Removing, in order, the identifiers of the first k entries of a list
from that list removes exactly those entries: the head always matches its
own identifier first. -/
theorem foldl_removeFirstById_take (l : List Transaction) :
    ∀ k, (l.take k).foldl (fun mp t => removeFirstById mp t.txId) l = l.drop k := by
  induction l with
  | nil =>
    intro k
    simp
  | cons h t ih =>
    intro k
    cases k with
    | zero => simp
    | succ k' =>
      rw [List.take_succ_cons, List.drop_succ_cons, List.foldl_cons]
      have hh : removeFirstById (h :: t) h.txId = t := by
        unfold removeFirstById
        rw [if_pos rfl]
      rw [hh]
      exact ih k'

/-- addBlock never touches the mempool. -/
theorem addBlock_mempool (env : Env) (bc : Blockchain) (b : Block) :
    (addBlock env bc b).1.mempool = bc.mempool := by
  unfold addBlock
  dsimp only
  split <;> rfl

/-- C8: when the mined candidate is successfully appended, exactly the
selected transactions — the first at-most-ten mempool entries in queue
order — are removed from the mempool by identifier, leaving the rest;
when no block is produced (guards, exhausted search, or failed append)
the returned state is the input state, mempool untouched. -/
theorem c8_mempool_frame (env : Env) (now : ℚ) (bc : Blockchain) (miner : String)
    (fuel : ℕ) (force : Bool) (bc' : Blockchain) (r : Option Block)
    (h : minePendingTransactions env now bc miner fuel force = (bc', r)) :
    (r = none → bc' = bc) ∧
    (∀ blk, r = some blk → bc'.mempool = bc.mempool.drop 10) := by
  unfold minePendingTransactions at h
  split_ifs at h with h1 h2
  · injection h with hbc hr
    refine ⟨fun _ => hbc.symm, fun blk hblk => ?_⟩
    rw [← hr] at hblk
    cases hblk
  · injection h with hbc hr
    refine ⟨fun _ => hbc.symm, fun blk hblk => ?_⟩
    rw [← hr] at hblk
    cases hblk
  · cases ht : getLatestBlock bc with
    | none =>
      rw [ht] at h
      injection h with hbc hr
      refine ⟨fun _ => hbc.symm, fun blk hblk => ?_⟩
      rw [← hr] at hblk
      cases hblk
    | some tip =>
      rw [ht] at h
      dsimp only at h
      cases hm : Block.mineBlock env
          { Block.make env now bc.chain.length
              (Transaction.make env now "COINBASE" miner
                (getCurrentReward bc +
                  (bc.mempool.take 10).foldl (fun sum t => sum + t.fee) 0) 0 none ::
                bc.mempool.take 10) now tip.hash 0 bc.difficulty
            with reward := getCurrentReward bc, miner := miner }
          bc.difficulty miner fuel with
      | none =>
        rw [hm] at h
        dsimp only at h
        injection h with hbc hr
        refine ⟨fun _ => hbc.symm, fun blk hblk => ?_⟩
        rw [← hr] at hblk
        cases hblk
      | some mined =>
        rw [hm] at h
        dsimp only at h
        by_cases ha : (addBlock env bc mined).2 = true
        · rw [if_pos ha] at h
          injection h with hbc hr
          refine ⟨fun hn => ?_, fun blk hblk => ?_⟩
          · rw [← hr] at hn
            cases hn
          · rw [← hbc]
            show ((bc.mempool.take 10).foldl (fun mp t => removeFirstById mp t.txId)
              (addBlock env bc mined).1.mempool) = bc.mempool.drop 10
            rw [addBlock_mempool]
            exact foldl_removeFirstById_take bc.mempool 10
        · rw [if_neg ha] at h
          injection h with hbc hr
          refine ⟨fun _ => hbc.symm, fun blk hblk => ?_⟩
          rw [← hr] at hblk
          cases hblk

/-- C8 witness: in the concrete scenario run the successful append leaves
the mempool equal to the original mempool with its first ten entries
dropped (here: emptied). -/
theorem c8_witness : cbc2.mempool = cbc1.mempool.drop 10 :=
  (c8_mempool_frame cenvC 8 cbc1 "addressM" 0 false cbc2 cRun.2 rfl).2 cblk
    (by with_unfolding_all exact rfl)

/-- On lists whose elements are all non-empty, the source pairing pass
(whose right operand falls back to the left one on an empty string) and
the specification pairing pass agree. -/
theorem merkleLevel_eq_specLevel (H : String → String) :
    ∀ l : List String, (∀ x ∈ l, x ≠ "") → merkleLevel H l = specLevel H l := by
  intro l
  induction l using merkleLevel.induct H with
  | case1 => intro _; rfl
  | case2 a => intro _; rfl
  | case3 a b rest ih =>
    intro hl
    rw [merkleLevel, specLevel]
    have hb : b ≠ "" := hl b (by simp)
    rw [if_neg hb]
    rw [ih fun x hx => hl x (by simp [hx])]

/-- Every element of a specification pairing pass is a digest, hence
non-empty when the digest function never returns the empty string. -/
theorem specLevel_nonempty (H : String → String) (hH : ∀ s, H s ≠ "") :
    ∀ l : List String, ∀ x ∈ specLevel H l, x ≠ "" := by
  intro l
  induction l using specLevel.induct H with
  | case1 => intro x hx; cases hx
  | case2 a =>
    intro x hx
    rw [specLevel] at hx
    simp at hx
    rw [hx]
    exact hH _
  | case3 a b rest ih =>
    intro x hx
    rw [specLevel] at hx
    rcases List.mem_cons.mp hx with h | h
    · rw [h]; exact hH _
    · exact ih x h

/-- With all-non-empty levels the source while loop and the specification
while loop coincide round for round. -/
theorem merkleRounds_eq (H : String → String) (hH : ∀ s, H s ≠ "") :
    ∀ (n : ℕ) (l : List String), (∀ x ∈ l, x ≠ "") →
      merkleRounds (merkleLevel H) n l = merkleRounds (specLevel H) n l := by
  intro n
  induction n with
  | zero => intro l _; rfl
  | succ k ih =>
    intro l hl
    rw [merkleRounds, merkleRounds]
    by_cases hlen : l.length ≤ 1
    · rw [if_pos hlen, if_pos hlen]
    · rw [if_neg hlen, if_neg hlen, merkleLevel_eq_specLevel H l hl]
      exact ih _ (specLevel_nonempty H hH l)

/-- C9: for a digest that never returns the empty string and transactions
with non-empty identifiers (every identifier the system produces is such
a digest), the stored Merkle root is the computation the claim describes:
hash of the empty string on no transactions, else repeated pairwise
hashing of the identifier leaves with odd-level duplication down to a
single hash; and the constructor stores exactly this root. -/
theorem c9_merkleRoot (env : Env) (txs : List Transaction)
    (hH : ∀ s, env.sha256 s ≠ "") (htx : ∀ tx ∈ txs, tx.txId ≠ "") :
    calculateMerkleRoot env txs
        = specMerkleRoot env.sha256 (txs.map fun tx => tx.txId) ∧
    ∀ (now : ℚ) (i : ℕ) (ts : ℚ) (ph : String) (n d : ℕ),
      (Block.make env now i txs ts ph n d).merkleRoot = calculateMerkleRoot env txs := by
  constructor
  · unfold calculateMerkleRoot specMerkleRoot
    by_cases he : txs = []
    · simp [he]
    · have hmap : txs.map (fun tx =>
          if tx.txId = "" then Transaction.calculateHash env tx else tx.txId)
          = txs.map fun tx => tx.txId := by
        apply List.map_congr_left
        intro tx hmem
        rw [if_neg (htx tx hmem)]
      have hne2 : ¬ (txs.map fun tx => tx.txId) = [] := by
        simpa using he
      rw [if_neg he, if_neg hne2]
      simp only [hmap]
      rw [merkleRounds_eq env.sha256 hH _ _ ?_]
      intro x hx
      rcases List.mem_map.mp hx with ⟨tx, hmem, rfl⟩
      exact htx tx hmem
  · intro now i ts ph n d
    rfl

/-- C9 witness: the computation evaluated on two concrete transactions
under a constant non-empty digest. -/
theorem c9_witness :
    calculateMerkleRoot env9 [wtx1, wtx2]
      = specMerkleRoot env9.sha256 ([wtx1, wtx2].map fun tx => tx.txId) :=
  (c9_merkleRoot env9 [wtx1, wtx2]
    (fun _ => by show ("h" : String) ≠ ""; decide) (by decide)).1

/-- C6: double-spend admission. For a sender with no pending mempool
transactions, two valid submissions each individually covered by the
ledger balance but jointly exceeding it: the first is accepted (appended
to the mempool) and the second is rejected, because admission adds the
candidate cost to the summed cost of every pending transaction of the
same sender and compares against the current ledger balance. -/
theorem c6_double_spend (env : Env) (bc : Blockchain) (tx1 tx2 : Transaction)
    (hs : tx2.sender = tx1.sender)
    (hmem : ∀ t ∈ bc.mempool, t.sender ≠ tx1.sender)
    (hv1 : tx1.isValid env = true) (hv2 : tx2.isValid env = true)
    (hdup : ∀ t ∈ bc.mempool, t.txId ≠ tx1.txId)
    (hb1 : tx1.amount + tx1.fee ≤ getBalance bc tx1.sender)
    (hb2 : tx2.amount + tx2.fee ≤ getBalance bc tx1.sender)
    (hsum : getBalance bc tx1.sender < (tx1.amount + tx1.fee) + (tx2.amount + tx2.fee)) :
    addTransactionToMempool env bc tx1
        = ({ bc with mempool := bc.mempool ++ [tx1] }, true) ∧
    (addTransactionToMempool env { bc with mempool := bc.mempool ++ [tx1] } tx2).2
        = false := by
  have hfil : bc.mempool.filter (fun t => t.sender = tx1.sender) = [] := by
    rw [List.filter_eq_nil_iff]
    intro t ht
    simpa using hmem t ht
  have hitv : isTransactionValid env bc tx1 = true := by
    unfold isTransactionValid
    rw [if_neg (not_not_intro hv1)]
    dsimp only
    rw [hfil]
    simp only [List.foldl_nil]
    rw [decide_eq_true_eq]
    linarith
  constructor
  · unfold addTransactionToMempool
    rw [if_neg (not_not_intro hitv)]
    dsimp only
    rw [if_neg (not_lt.mpr hb1)]
    rw [if_neg ?_]
    intro hany
    rw [List.any_eq_true] at hany
    obtain ⟨t, ht, hid⟩ := hany
    exact hdup t ht (by simpa using hid)
  · have hfil2 : (bc.mempool ++ [tx1]).filter (fun t => t.sender = tx2.sender) = [tx1] := by
      rw [List.filter_append]
      have h1 : bc.mempool.filter (fun t => t.sender = tx2.sender) = [] := by
        rw [hs]
        exact hfil
      rw [h1]
      simp [hs]
    have hitv2 : isTransactionValid env { bc with mempool := bc.mempool ++ [tx1] } tx2
        = false := by
      unfold isTransactionValid
      rw [if_neg (not_not_intro hv2)]
      dsimp only
      rw [hfil2]
      simp only [List.foldl_cons, List.foldl_nil]
      rw [decide_eq_false_iff_not, not_le]
      show getBalance bc tx2.sender < 0 + tx1.amount + tx1.fee + tx2.amount + tx2.fee
      rw [hs]
      linarith
    unfold addTransactionToMempool
    rw [if_pos (by rw [hitv2]; exact Bool.false_ne_true)]

/-- C6 witness: alice holds 100; two spends of 60 are each affordable
alone but not together — the first is admitted, the second refused. -/
theorem c6_witness :
    addTransactionToMempool cenvId bc6 tx61
        = ({ bc6 with mempool := bc6.mempool ++ [tx61] }, true) ∧
    (addTransactionToMempool cenvId { bc6 with mempool := bc6.mempool ++ [tx61] } tx62).2
        = false :=
  c6_double_spend cenvId bc6 tx61 tx62 rfl (by decide)
    (by with_unfolding_all decide) (by with_unfolding_all decide) (by decide)
    (by with_unfolding_all decide) (by with_unfolding_all decide)
    (by with_unfolding_all decide)

/-- A successful fresh construction is exactly a mined genesis block
wrapped in the fresh ledger state. -/
theorem newBlockchain_success (env : Env) (fuel : ℕ) (bc0 : Blockchain)
    (h : newBlockchain env fuel = some bc0) :
    ∃ g, Block.mineBlock env (genesisBlockOf env) 1 "GENESIS" fuel = some g ∧
      bc0 = freshLedger env g := by
  unfold newBlockchain at h
  cases hg : Block.mineBlock env (genesisBlockOf env) 1 "GENESIS" fuel with
  | none =>
    rw [hg] at h
    exact absurd h (by simp)
  | some g =>
    rw [hg] at h
    dsimp only [updateBalances] at h
    injection h with h'
    exact ⟨g, rfl, h'.symm⟩

/-- A mining call that returns a block did the following: read the tip,
assembled the coinbase-plus-selection candidate at the next index, mined
it successfully, appended it, rebuilt balances from the extended chain and
evicted the selected transactions from the mempool. -/
theorem minePending_success (env : Env) (now : ℚ) (bc : Blockchain) (miner : String)
    (fuel : ℕ) (force : Bool) (bc' : Blockchain) (blk : Block)
    (h : minePendingTransactions env now bc miner fuel force = (bc', some blk)) :
    ∃ tip, getLatestBlock bc = some tip ∧
      Block.mineBlock env
        { Block.make env now bc.chain.length
            (Transaction.make env now "COINBASE" miner
              (getCurrentReward bc + (bc.mempool.take 10).foldl (fun sum t => sum + t.fee) 0)
              0 none :: bc.mempool.take 10) now tip.hash 0 bc.difficulty
          with reward := getCurrentReward bc, miner := miner }
        bc.difficulty miner fuel = some blk ∧
      bc' = { bc with
              chain := bc.chain ++ [blk],
              balances := balancesOf (bc.chain ++ [blk]),
              mempool := (bc.mempool.take 10).foldl
                (fun mp t => removeFirstById mp t.txId) bc.mempool } := by
  unfold minePendingTransactions at h
  split_ifs at h with h1 h2
  · simp [Prod.ext_iff] at h
  · simp [Prod.ext_iff] at h
  · cases ht : getLatestBlock bc with
    | none =>
      rw [ht] at h
      dsimp only at h
      simp [Prod.ext_iff] at h
    | some tip =>
      rw [ht] at h
      dsimp only at h
      refine ⟨tip, rfl, ?_⟩
      cases hm : Block.mineBlock env
          { Block.make env now bc.chain.length
              (Transaction.make env now "COINBASE" miner
                (getCurrentReward bc +
                  (bc.mempool.take 10).foldl (fun sum t => sum + t.fee) 0) 0 none ::
                bc.mempool.take 10) now tip.hash 0 bc.difficulty
            with reward := getCurrentReward bc, miner := miner }
          bc.difficulty miner fuel with
      | none =>
        rw [hm] at h
        dsimp only at h
        simp [Prod.ext_iff] at h
      | some mined =>
        rw [hm] at h
        dsimp only at h
        by_cases ha : (addBlock env bc mined).2 = true
        · rw [if_pos ha] at h
          have hsnd := congrArg Prod.snd h
          dsimp only at hsnd
          have hmb : mined = blk := by injection hsnd
          subst hmb
          have haddv : addBlock env bc mined
              = ({ bc with chain := bc.chain ++ [mined],
                           balances := balancesOf (bc.chain ++ [mined]) }, true) := by
            unfold addBlock
            cases hbv : Block.isValid env mined (getLatestBlock bc) with
            | false =>
              exfalso
              unfold addBlock at ha
              rw [if_neg (by rw [hbv]; exact Bool.false_ne_true)] at ha
              exact Bool.false_ne_true ha
            | true =>
              rw [if_pos hbv]
              rfl
          have hfst := congrArg Prod.fst h
          dsimp only at hfst
          rw [haddv] at hfst
          dsimp only at hfst
          exact ⟨rfl, hfst.symm⟩
        · rw [if_neg ha] at h
          simp [Prod.ext_iff] at h

/-- C1 (amended): end-to-end scenario over a fresh ledger. The genesis
address starts with balance 255; submitting the scenario transaction
(genesis address to addressX, amount 10, fee 0.1) succeeds and brings
the mempool to size one; a successful MineNext with miner addressM
appends a block holding exactly the coinbase transaction to addressM
followed by the submitted one, after which the genesis address holds
255 - 10.1, addressX holds 10, the mempool is empty — and addressM holds
currentReward + 0.2, because updateBalances credits the miner every
non-coinbase fee on top of the coinbase amount that already includes the
collected fees. -/
theorem c1_end_to_end_amended (env : Env) (fuel fuel2 : ℕ) (now1 now2 : ℚ)
    (bc0 bc2 : Blockchain) (blk : Block)
    (hinit : newBlockchain env fuel = some bc0)
    (hmine : minePendingTransactions env now2 (scenarioSubmit env now1 bc0).1
        "addressM" fuel2 false = (bc2, some blk)) :
    getBalance bc0 gAddr = 255 ∧
    (scenarioSubmit env now1 bc0).2 = true ∧
    (scenarioSubmit env now1 bc0).1.mempool.length = 1 ∧
    blk.transactions
      = [Transaction.make env now2 "COINBASE" "addressM" (50 + 1 / 10) 0 none,
         scenarioTx env now1] ∧
    getBalance bc2 gAddr = 255 - (10 + 1 / 10) ∧
    getBalance bc2 "addressX" = 10 ∧
    getBalance bc2 "addressM" = 50 + 1 / 10 + 1 / 10 ∧
    bc2.mempool.length = 0 := by
  obtain ⟨g, hg, rfl⟩ := newBlockchain_success env fuel bc0 hinit
  unfold Block.mineBlock at hg
  have hgs := mineLoop_spec env 1 fuel _ g hg
  have hgtx : g.transactions = [genesisTransactionOf env] := hgs.2.2.2.1
  have hgm : g.miner = "GENESIS" := hgs.2.2.2.2.2.2.2.1
  have hbalg : ∀ a, balancesOf [g] a
      = applyTx "GENESIS" (fun _ => 0) (genesisTransactionOf env) a := by
    intro a
    simp only [balancesOf, List.foldl_cons, List.foldl_nil, applyBlock]
    rw [hgtx, hgm]
    simp only [List.foldl_cons, List.foldl_nil]
  have hb0 : balancesOf [g] gAddr = 255 := by
    rw [hbalg]
    simp [applyTx, updateBal, genesisTransactionOf, Transaction.make, gAddr]
  have hval : Transaction.isValid env (scenarioTx env now1) = true := by
    unfold Transaction.isValid scenarioTx Transaction.make
    dsimp only
    rw [if_neg (by decide), if_neg (by norm_num), if_neg (by norm_num),
      if_neg (by decide)]
    exact decide_eq_true rfl
  have hitv : isTransactionValid env (freshLedger env g) (scenarioTx env now1)
      = true := by
    unfold isTransactionValid
    rw [if_neg (not_not_intro hval)]
    dsimp only
    rw [decide_eq_true_eq]
    show (0 : ℚ) + 10 + 1 / 10 ≤ balancesOf [g] gAddr
    rw [hb0]
    norm_num
  have hsub : scenarioSubmit env now1 (freshLedger env g)
      = ({ freshLedger env g with mempool := [scenarioTx env now1] }, true) := by
    unfold scenarioSubmit addTransactionToMempool
    rw [if_neg (not_not_intro hitv)]
    dsimp only
    rw [if_neg ?hlt, if_neg ?hdup]
    case hlt =>
      show ¬ (balancesOf [g] gAddr < 10 + 1 / 10)
      rw [hb0]
      norm_num
    case hdup =>
      intro hc
      exact Bool.false_ne_true hc
    rfl
  rw [hsub] at hmine
  dsimp only at hmine
  set S1 : Blockchain := { freshLedger env g with mempool := [scenarioTx env now1] }
    with hS1
  obtain ⟨tip, htip, hmb, hbc2⟩ :=
    minePending_success env now2 S1 "addressM" fuel2 false bc2 blk hmine
  have htg : tip = g := by
    have h1 : ([g].getLast?) = some tip := htip
    rw [List.getLast?_singleton] at h1
    injection h1 with h2
    exact h2.symm
  rw [htg] at hmb
  have hS1mem : S1.mempool = [scenarioTx env now1] := rfl
  have hS1chain : S1.chain = [g] := rfl
  have hsel : S1.mempool.take 10 = [scenarioTx env now1] := rfl
  have hlen1 : S1.chain.length = 1 := rfl
  have hdiff : S1.difficulty = 5 := rfl
  have hcr : getCurrentReward S1 = 50 := by
    unfold getCurrentReward
    rw [hlen1]
    have hmr : S1.miningReward = 50 := rfl
    rw [hmr]
    norm_num
  have hfees : List.foldl (fun sum t => sum + t.fee) 0 (S1.mempool.take 10)
      = 1 / 10 := by
    rw [hsel]
    show (0 : ℚ) + 1 / 10 = 1 / 10
    norm_num
  rw [hcr, hfees, hsel, hlen1, hdiff] at hmb
  unfold Block.mineBlock at hmb
  have hbs := mineLoop_spec env 5 fuel2 _ blk hmb
  have hbt : blk.transactions
      = [Transaction.make env now2 "COINBASE" "addressM" (50 + 1 / 10) 0 none,
         scenarioTx env now1] := by
    rw [hbs.2.2.2.1]
    rfl
  have hbm : blk.miner = "addressM" := hbs.2.2.2.2.2.2.2.1
  have hbals : ∀ a, balancesOf ([g] ++ [blk]) a
      = applyTx "addressM"
          (applyTx "addressM"
            (applyTx "GENESIS" (fun _ => 0) (genesisTransactionOf env))
            (Transaction.make env now2 "COINBASE" "addressM" (50 + 1 / 10) 0 none))
          (scenarioTx env now1) a := by
    intro a
    simp only [List.cons_append, List.nil_append, balancesOf, List.foldl_cons,
      List.foldl_nil, applyBlock]
    rw [hgtx, hgm, hbt, hbm]
    simp only [List.foldl_cons, List.foldl_nil]
  rw [hS1chain, hS1mem, hsel] at hbc2
  have hmem2 : bc2.mempool = [] := by
    rw [hbc2]
    show List.foldl (fun mp t => removeFirstById mp t.txId)
      [scenarioTx env now1] [scenarioTx env now1] = []
    simp [removeFirstById]
  have hf1 : getBalance bc2 gAddr = 255 - (10 + 1 / 10) := by
    rw [hbc2]
    show balancesOf ([g] ++ [blk]) gAddr = 255 - (10 + 1 / 10)
    rw [hbals]
    simp [applyTx, updateBal, genesisTransactionOf, scenarioTx,
      Transaction.make, gAddr]
  have hf2 : getBalance bc2 "addressX" = 10 := by
    rw [hbc2]
    show balancesOf ([g] ++ [blk]) "addressX" = 10
    rw [hbals]
    simp [applyTx, updateBal, genesisTransactionOf, scenarioTx,
      Transaction.make, gAddr]
  have hf3 : getBalance bc2 "addressM" = 50 + 1 / 10 + 1 / 10 := by
    rw [hbc2]
    show balancesOf ([g] ++ [blk]) "addressM" = 50 + 1 / 10 + 1 / 10
    rw [hbals]
    simp [applyTx, updateBal, genesisTransactionOf, scenarioTx,
      Transaction.make, gAddr]
  refine ⟨hb0, ?_, ?_, hbt, hf1, hf2, hf3, ?_⟩
  · rw [hsub]
  · rw [hsub]
    rfl
  · rw [hmem2]
    rfl

/-- C1 witness: the amended end-to-end scenario evaluated on the concrete
constant-digest run. -/
theorem c1_witness :
    getBalance cbc0 gAddr = 255 ∧
    (scenarioSubmit cenvC 7 cbc0).2 = true ∧
    (scenarioSubmit cenvC 7 cbc0).1.mempool.length = 1 ∧
    cblk.transactions
      = [Transaction.make cenvC 8 "COINBASE" "addressM" (50 + 1 / 10) 0 none,
         scenarioTx cenvC 7] ∧
    getBalance cbc2 gAddr = 255 - (10 + 1 / 10) ∧
    getBalance cbc2 "addressX" = 10 ∧
    getBalance cbc2 "addressM" = 50 + 1 / 10 + 1 / 10 ∧
    cbc2.mempool.length = 0 :=
  c1_end_to_end_amended cenvC 0 0 7 8 cbc0 cbc2 cblk
    (by with_unfolding_all exact rfl) (by with_unfolding_all exact rfl)

/-- C1 counterexample: in the concrete scenario run everything matches
the claim except the miner balance: addressM ends with
currentReward + 0.2, not currentReward + 0.1, because updateBalances
credits the miner the fee of every non-coinbase transaction even though
the coinbase amount already contains the collected fees. -/
theorem c1_counterexample :
    cRun.2 = some cblk ∧
    getCurrentReward cbc1 = 50 ∧
    getBalance cbc2 "addressM" ≠ getCurrentReward cbc1 + 1 / 10 ∧
    getBalance cbc2 "addressM" = getCurrentReward cbc1 + 2 / 10 := by
  with_unfolding_all decide

/-- C10: the duplicate-identifier admission check consults only the
mempool. In the concrete run the mined block in the chain contains the
transaction ctx; the mempool holds no entry with its identifier, and
resubmitting the very same transaction is accepted again. -/
theorem c10_resubmission_after_inclusion :
    cblk ∈ cbc2.chain ∧ ctx ∈ cblk.transactions ∧
    (cbc2.mempool.any fun t => t.txId = ctx.txId) = false ∧
    (addTransactionToMempool cenvC cbc2 ctx).2 = true := by
  with_unfolding_all decide

end GSC
